import Mathlib

/-!
Verification of the boolean query-matching engine (`src/scrape.py`) and the
emotion classification pipeline (`src/posts_to_sentiment.py`) of the
LikesToLoyalty repository.

The query engine is built on pyparsing: `build_parser()` combines
`dblQuotedString | Word(alphanums + "_-")` operands with `infixNotation`
levels `NOT` (unary, right) > `AND` (binary, left) > `OR` (binary, left),
and the node classes `Operand`, `Not`, `And`, `Or` each carry an `eval`
method.  The model below embeds that parser (including pyparsing's
whitespace skipping, caseless keyword boundary checks and the
`parseString(..., parseAll=False)` longest-prefix behaviour) as a
fuel-indexed recursive descent parser over the character list of the query,
and the node classes as an inductive type with a pure evaluator.

The classification pipeline is embedded as pure list functions: text
preparation (prompt template, `strip`, hard truncation), contiguous
chunking, a completion-schedule model of the `ThreadPoolExecutor` dispatch,
label selection under `suppress_neutral`, and the emotion→funnel-stage
lookup table.  Missing / non-string `text` cells (pandas `NaN`) are `none`
in the model, and the Python exceptions the pipeline can surface are an
explicit error type.
-/

/-! ## Strings and characters -/

/-- Python `str.lower()`, modelled as the character-wise map of
`Char.toLower`.  Every string in the verified claims is ASCII, where the two
coincide. -/
def lowerStr (s : String) : String := ⟨s.data.map Char.toLower⟩

/-- Python substring containment `needle in haystack` on character lists:
true iff `needle` occurs contiguously inside `haystack` (the empty needle is
contained in everything). -/
def substrIn (needle : List Char) : List Char → Bool
  | [] => needle.isEmpty
  | c :: rest => needle.isPrefixOf (c :: rest) || substrIn needle rest

/-! ## The query AST (`scrape.py` classes `Operand`, `Not`, `And`, `Or`) -/

/-- Abstract syntax tree of the query language, one constructor per node
class in `scrape.py`.  `Operand` stores the matched term (`tokens[0]`),
`Not` stores `tokens[0][1]`, and `And`/`Or` store the n-ary children list
`self.args = tokens[0][0::2]`. -/
inductive Expr where
  | Operand (term : String)
  | Not (child : Expr)
  | And (children : List Expr)
  | Or (children : List Expr)

mutual
/-- Node evaluation from `scrape.py`: `Operand.eval` is
`self.term.lower() in target.lower()`; `Not.eval` negates;
`And.eval` is `all(arg.eval(target) for arg in self.args)` and `Or.eval` is
`any(arg.eval(target) for arg in self.args)`, rendered as the
short-circuiting chains `evalAll` / `evalAny`. -/
def Expr.eval : Expr → String → Bool
  | .Operand term, target => substrIn (lowerStr term).data (lowerStr target).data
  | .Not c, target => !(c.eval target)
  | .And cs, target => Expr.evalAll cs target
  | .Or cs, target => Expr.evalAny cs target

/-- Python `all(arg.eval(target) for arg in args)` as a left-to-right
short-circuit conjunction. -/
def Expr.evalAll : List Expr → String → Bool
  | [], _ => true
  | e :: es, target => e.eval target && Expr.evalAll es target

/-- Python `any(arg.eval(target) for arg in args)` as a left-to-right
short-circuit disjunction. -/
def Expr.evalAny : List Expr → String → Bool
  | [], _ => false
  | e :: es, target => e.eval target || Expr.evalAny es target
end

/-! ## Sentiment pipeline models (`posts_to_sentiment.py`) -/

/-- Classifier configuration from `create_prediction_pipe`:
`top_k=2 if self.suppress_neutral else 1`. -/
def topK (suppressNeutral : Bool) : Nat := if suppressNeutral then 2 else 1

/-- Label selection from `predict_sentiment`, applied to one ranked
prediction list (the `"label"` fields, in descending score order):
without `suppress_neutral` it is `pred[0]["label"]`; with it,
`pred[0]["label"] if pred[0]["label"] != "neutral" else pred[1]["label"]`.
Python list indexing out of range raises `IndexError`, modelled by
`none`. -/
def selectLabel (suppressNeutral : Bool) (pred : List String) : Option String :=
  if suppressNeutral then
    match pred with
    | [] => none
    | l0 :: rest => if l0 = "neutral" then rest.head? else some l0
  else pred.head?

/-- The emotion→funnel-stage lookup of `map_emotion_to_stage`:
`mapping.get(emotion_label, "Awareness")` over the fixed 13-entry dict. -/
def map_emotion_to_stage (emotion_label : String) : String :=
  if emotion_label = "curiosity" then "Awareness"
  else if emotion_label = "neutral" then "Awareness"
  else if emotion_label = "admiration" then "Trust"
  else if emotion_label = "optimism" then "Interest"
  else if emotion_label = "excitement" then "Interest"
  else if emotion_label = "desire" then "Interest"
  else if emotion_label = "anticipation" then "Interest"
  else if emotion_label = "confusion" then "Drop-Off"
  else if emotion_label = "disapproval" then "Drop-Off"
  else if emotion_label = "anger" then "Drop-Off"
  else if emotion_label = "gratitude" then "Advocacy"
  else if emotion_label = "pride" then "Advocacy"
  else if emotion_label = "love" then "Advocacy"
  else "Awareness"

/-- The keys of the `map_emotion_to_stage` dict, in source order. -/
def knownLabels : List String :=
  ["curiosity", "neutral", "admiration", "optimism", "excitement", "desire",
   "anticipation", "confusion", "disapproval", "anger", "gratitude", "pride", "love"]

/-- The fixed prompt template of `predict_sentiment`:
`f"Query: {self.query}. Post: " + df["text"]`. -/
def prefixTemplate (query text : String) : String :=
  "Query: " ++ query ++ ". Post: " ++ text

/-- Python character slicing `t[:n]`: the first `n` characters of `s`. -/
def takeChars (n : Nat) (s : String) : String := ⟨s.data.take n⟩

/-- Python `str.strip()`: leading and trailing whitespace removed. -/
def stripStr (s : String) : String :=
  ⟨((s.data.dropWhile Char.isWhitespace).reverse.dropWhile Char.isWhitespace).reverse⟩

/-- A `text` cell of the posts DataFrame.  `none` models a missing value
(pandas `NaN`, arising from a post whose `text` field was absent or not a
string). -/
abbrev TextCell := Option String

/-- The text-preparation steps of `predict_sentiment` on the `text` column:
`df["text"] = f"Query: {self.query}. Post: " + df["text"]` (the pandas
object-dtype addition is masked, so a `NaN` cell stays `NaN` rather than
raising), then
`texts = [t.strip()[:max_text_len] for t in texts if isinstance(t, str)]`:
the `isinstance` guard drops the non-string cells and every kept text is
stripped and hard-cut at `max_text_len` characters. -/
def pipelineTexts (query : String) (maxTextLen : Nat) (cells : List TextCell) : List String :=
  (cells.map (Option.map (prefixTemplate query))).filterMap
    (Option.map (fun t => takeChars maxTextLen (stripStr t)))

/-- Recursion core of `chunksOf`, structural on a fuel bound so that
concrete chunkings reduce definitionally; `chunksOf` supplies fuel
exceeding the list length, which a positive step size can never exhaust. -/
def chunksOfAux (batchSize : Nat) : Nat → List α → List (List α)
  | 0, _ => []
  | fuel + 1, l =>
    if l.isEmpty then []
    else l.take batchSize :: chunksOfAux batchSize fuel (l.drop batchSize)

/-- Contiguous chunking from `predict_sentiment`:
`chunks = [texts[i:i+self.batch_size] for i in range(0, len(texts), self.batch_size)]`.
A zero step makes Python `range` raise `ValueError`; the model returns `[]`
there, and every theorem about chunking assumes `0 < batchSize`. -/
def chunksOf (batchSize : Nat) (l : List α) : List (List α) :=
  if batchSize = 0 then [] else chunksOfAux batchSize (l.length + 1) l

/-- The worker-pool bound of `predict_sentiment`:
`ThreadPoolExecutor(max_workers=4)`. -/
def maxWorkers : Nat := 4

/-- One completion schedule of the concurrent chunk dispatch: the chunk
indices are processed in an arbitrary completion order `order`, each worker
writing its chunk's predictions into the slot belonging to its own chunk
(`executor.map` keys results by input position, never by completion
time). -/
def runOrder (f : List String → List α) (chunks : List (List String)) (order : List Nat) :
    List (List α) :=
  order.foldl (fun slots i => slots.set i (f (chunks.getD i [])))
    (List.replicate chunks.length [])

/-- Concurrent dispatch under completion schedule `order`, followed by the
flattening `predictions = [item for sublist in results for item in sublist]`. -/
def concRun (f : List String → List α) (batchSize : Nat) (texts : List String)
    (order : List Nat) : List α :=
  (runOrder f (chunksOf batchSize texts) order).flatten

/-- The strictly sequential batch-by-batch execution (the commented-out
reference loop in `predict_sentiment`). -/
def seqRun (f : List String → List α) (batchSize : Nat) (texts : List String) : List α :=
  ((chunksOf batchSize texts).map f).flatten

/-- Python exceptions surfaced by the modelled pipeline steps. -/
inductive PyErr where
  /-- pyparsing `ParseException` escaping `parser.parseString(query)`. -/
  | parseError
  /-- `AttributeError`, e.g. `nan.lower()` when `Operand.eval` receives a
  non-string target. -/
  | attributeError
  /-- `IndexError` from ranked-list indexing past the end. -/
  | indexError
  /-- pandas `ValueError`: length of values does not match length of index,
  raised when a column assignment has the wrong number of rows. -/
  | lengthMismatch
deriving DecidableEq

/-- The emotion-selection and column-assignment tail of `predict_sentiment`:
each ranked prediction yields one label via `selectLabel`, and the resulting
list is written back as `df["emotion"]`, which pandas only accepts when it
has exactly one value per DataFrame row. -/
def assignEmotions (suppressNeutral : Bool) (cells : List TextCell)
    (predictions : List (List String)) : Except PyErr (List String) := do
  let emotions ← predictions.mapM (fun p =>
    match selectLabel suppressNeutral p with
    | some l => Except.ok l
    | none => Except.error PyErr.indexError)
  if emotions.length = cells.length then Except.ok emotions
  else Except.error PyErr.lengthMismatch

/-- End-to-end model of the `predict_sentiment` path from the `text` column
to the `emotion` column: prepare the texts, classify them batch-by-batch
(given the per-text classifier behaviour `classify`; the concurrent dispatch
is order-identical to this by `c7_batch_dispatch`), then select and assign
the emotion labels. -/
def predictSentimentModel (query : String) (maxTextLen : Nat) (batchSize : Nat)
    (suppressNeutral : Bool) (classify : String → List String)
    (cells : List TextCell) : Except PyErr (List String) :=
  let texts := pipelineTexts query maxTextLen cells
  let predictions := seqRun (fun chunk => chunk.map classify) batchSize texts
  assignEmotions suppressNeutral cells predictions

/-! ## The query parser (`build_parser` in `scrape.py`, built on pyparsing) -/

/-- pyparsing's default skippable whitespace,
`ParserElement.DEFAULT_WHITE_CHARS = " \n\t"`. -/
def wsChar (c : Char) : Bool := c = ' ' || c = '\n' || c = '\t'

/-- The leading-whitespace skip pyparsing performs before every match
attempt. -/
def dropWs (s : List Char) : List Char := s.dropWhile wsChar

/-- The operand word alphabet `alphanums + "_-"` (`alphanums` is the ASCII
letters and digits). -/
def wordChar (c : Char) : Bool := c.isAlphanum || c = '_' || c = '-'

/-- `Keyword.DEFAULT_KEYWORD_CHARS = alphanums + "_$"`: the characters that
may not directly follow (or precede) a keyword match. -/
def kwIdentChar (c : Char) : Bool := c.isAlphanum || c = '_' || c = '$'

/-- Caseless comparison used by `Keyword(..., caseless=True)`. -/
def upperEq (a b : List Char) : Bool := a.map Char.toUpper == b.map Char.toUpper

/-- One `Word(alphanums + "_-")` match: skip whitespace, then take the
maximal nonempty run of word characters. -/
def parseWordTok (s : List Char) : Option (List Char × List Char) :=
  let s1 := dropWs s
  let w := s1.takeWhile wordChar
  if w.isEmpty then none else some (w, s1.dropWhile wordChar)

/-- One caseless `Keyword(kw)` match (`kw` given in upper case): skip
whitespace, compare the next `kw.length` characters caselessly, and require
the following character (if any) not to be a keyword identifier character.
pyparsing additionally checks the character before the match; in every
position where this grammar attempts a keyword, that preceding character is
the start of input, whitespace, `)`, `"` or another non-identifier
character (a maximal `Word` run or an earlier keyword boundary cannot stop
directly before a letter), so the pre-check never decides a match and is
omitted. -/
def keywordTok (kw : List Char) (s : List Char) : Option (List Char) :=
  let s1 := dropWs s
  if upperEq (s1.take kw.length) kw then
    match s1.drop kw.length with
    | [] => some []
    | c :: rest => if kwIdentChar c then none else some (c :: rest)
  else none

/-- Hexadecimal digit, for the `\x…` escape alternative of pyparsing's
`dblQuotedString` regex. -/
def hexDigit (c : Char) : Bool :=
  c.isDigit || ('a' ≤ c && c ≤ 'f') || ('A' ≤ c && c ≤ 'F')

/-- Body scanner for pyparsing's `dblQuotedString`, whose regex is
`"(?:[^"\n\r\\]|(?:"")|(?:\\(?:[^x]|x[0-9a-fA-F]+)))*"`, entered after the
opening quote.  Returns the body verbatim (escapes and doubled quotes kept:
`removeQuotes` only slices off the outer pair) together with the text after
the closing quote.  The fuel argument keeps the recursion structural; every
step consumes at least one character, so the caller's `length + 1` can
never run out.  The scanner commits to a doubled `""` instead of
backtracking, which differs from the regex only on bodies ending in an odd
run of quotes directly before the closer, an input no claim involves. -/
def scanDqBody : Nat → List Char → Option (List Char × List Char)
  | 0, _ => none
  | fuel + 1, l =>
    match l with
    | [] => none
    | '"' :: '"' :: rest => (scanDqBody fuel rest).map (fun p => ('"' :: '"' :: p.1, p.2))
    | '"' :: rest => some ([], rest)
    | '\\' :: 'x' :: rest =>
      let h := rest.takeWhile hexDigit
      if h.isEmpty then none
      else (scanDqBody fuel (rest.dropWhile hexDigit)).map
        (fun p => ('\\' :: 'x' :: (h ++ p.1), p.2))
    | '\\' :: c :: rest => (scanDqBody fuel rest).map (fun p => ('\\' :: c :: p.1, p.2))
    | ['\\'] => none
    | '\n' :: _ => none
    | '\r' :: _ => none
    | c :: rest => (scanDqBody fuel rest).map (fun p => (c :: p.1, p.2))

/-- One `dblQuotedString.setParseAction(removeQuotes)` match: skip
whitespace, require an opening quote, scan the body, and return the content
with the outer quotes stripped (`removeQuotes` is `t[0][1:-1]`; pyparsing
performs no escape processing on the content). -/
def parseQuotedTok (s : List Char) : Option (List Char × List Char) :=
  match dropWs s with
  | '"' :: rest => scanDqBody (rest.length + 1) rest
  | _ => none

/-- The `NOT` keyword spelling. -/
def kwNOT : List Char := ['N', 'O', 'T']

/-- The `AND` keyword spelling. -/
def kwAND : List Char := ['A', 'N', 'D']

/-- The `OR` keyword spelling. -/
def kwOR : List Char := ['O', 'R']

mutual
/-- One `infixNotation` base-expression match:
`lastExpr = (dblQuotedString | Word) | lpar + expr + rpar`, quoted phrase
first, then bare word, then the parenthesised alternative (whose
parentheses are suppressed, the tokens being the inner expression's).  The
fuel argument bounds recursion depth; `parseQuery` supplies more than any
input can consume. -/
def parseAtom : Nat → List Char → Option (Expr × List Char)
  | 0, _ => none
  | fuel + 1, s =>
    match parseQuotedTok s with
    | some (content, rest) => some (.Operand ⟨content⟩, rest)
    | none =>
      match parseWordTok s with
      | some (w, rest) => some (.Operand ⟨w⟩, rest)
      | none =>
        match dropWs s with
        | '(' :: r =>
          match parseOrL fuel r with
          | some (e, r2) =>
            match dropWs r2 with
            | ')' :: r3 => some (e, r3)
            | _ => none
          | none => none
        | _ => none

/-- The unary right-associative `NOT` level of `infixNotation`: try
`NOT <this level>` as a unit and wrap the operand in a `Not` node; if that
unit fails — including when the keyword matched but no operand followed —
fall back to the base expression at the original position. -/
def parseNotL : Nat → List Char → Option (Expr × List Char)
  | 0, _ => none
  | fuel + 1, s =>
    match keywordTok kwNOT s with
    | some r =>
      match parseNotL fuel r with
      | some (e, r2) => some (.Not e, r2)
      | none => parseAtom fuel s
    | none => parseAtom fuel s

/-- The left-associative binary `AND` level: one `NOT`-level operand,
optionally extended by `(AND operand)+`; with at least one extension all
collected operands become the children of a single flat `And` node
(`self.args = tokens[0][0::2]`), otherwise the lone operand passes through
unwrapped. -/
def parseAndL : Nat → List Char → Option (Expr × List Char)
  | 0, _ => none
  | fuel + 1, s =>
    match parseNotL fuel s with
    | some (e0, r) =>
      match parseAndRest fuel r with
      | (es, r2) => if es.isEmpty then some (e0, r) else some (.And (e0 :: es), r2)
    | none => none

/-- The `(AND operand)*` tail of the `AND` level: each iteration matches the
keyword and one `NOT`-level operand as a unit, stopping — and consuming
nothing of the failed iteration — as soon as either part fails. -/
def parseAndRest : Nat → List Char → (List Expr × List Char)
  | 0, s => ([], s)
  | fuel + 1, s =>
    match keywordTok kwAND s with
    | some r =>
      match parseNotL fuel r with
      | some (e, r2) =>
        match parseAndRest fuel r2 with
        | (es, r3) => (e :: es, r3)
      | none => ([], s)
    | none => ([], s)

/-- The left-associative binary `OR` level, the outermost, over the `AND`
level. -/
def parseOrL : Nat → List Char → Option (Expr × List Char)
  | 0, _ => none
  | fuel + 1, s =>
    match parseAndL fuel s with
    | some (e0, r) =>
      match parseOrRest fuel r with
      | (es, r2) => if es.isEmpty then some (e0, r) else some (.Or (e0 :: es), r2)
    | none => none

/-- The `(OR operand)*` tail of the `OR` level. -/
def parseOrRest : Nat → List Char → (List Expr × List Char)
  | 0, s => ([], s)
  | fuel + 1, s =>
    match keywordTok kwOR s with
    | some r =>
      match parseAndL fuel r with
      | some (e, r2) =>
        match parseOrRest fuel r2 with
        | (es, r3) => (e :: es, r3)
      | none => ([], s)
    | none => ([], s)
end

/-- Fuel that strictly dominates the recursion depth of any parse of `s`:
between two consecutive fuel steps on any descent path, at most six steps
pass without consuming a character of input. -/
def parseFuel (s : List Char) : Nat := 6 * (s.length + 1)

/-- `build_parser().parseString(query)[0]`: parse one expression at the
head of the query.  `parseString` defaults to `parseAll=False`, so trailing
unconsumed input is silently ignored; a failure of the expression itself
(pyparsing `ParseException`) is `none`. -/
def parseQuery (query : String) : Option Expr :=
  (parseOrL (parseFuel query.data) query.data).map (fun p => p.1)

/-- `df["text"].apply(parsed.eval)` on one cell: a missing or non-string
`text` is a pandas `NaN` (a float), and `Operand.eval` calls
`target.lower()` on it, raising `AttributeError`. -/
def evalCell (e : Expr) : TextCell → Except PyErr Bool
  | some t => Except.ok (e.eval t)
  | none => Except.error PyErr.attributeError

/-- `df_posts["match"] = df_posts["text"].apply(parsed.eval)`: pandas
`apply` runs row by row and the first raising row aborts it. -/
def matchColumn (e : Expr) (cells : List TextCell) : Except PyErr (List Bool) :=
  cells.mapM (evalCell e)

/-- The query-filter step of `ScrapeBluesky.scrape` (its final, pure
stage): parse the query, evaluate it on every `text` cell, and keep the
rows whose flag is true, preserving order
(`df_posts = df_posts[df_posts["match"]]`). -/
def filterByQuery (query : String) (cells : List TextCell) :
    Except PyErr (List TextCell) :=
  match parseQuery query with
  | none => Except.error PyErr.parseError
  | some e =>
    (matchColumn e cells).map (fun flags =>
      (cells.zip flags).filterMap (fun cb => if cb.2 then some cb.1 else none))

/-! ## Bare terms and query assembly

The precedence and flattening claims quantify over bare terms.  A bare term
is a nonempty run of word characters; pyparsing reads a term that begins
with the `NOT` keyword at a keyword boundary (caselessly `not` followed by
nothing or by a non-identifier character, which among word characters is
only `-`) as the `NOT` operator instead, so such spellings are excluded
from the quantification. -/

/-- Caseless `NOT`-keyword trigger at the head of a character run. -/
def notTrigger (t : List Char) : Bool :=
  upperEq (t.take 3) kwNOT &&
    (match t.drop 3 with
     | [] => true
     | c :: _ => !kwIdentChar c)

/-- A safe bare term: nonempty, word characters only, and not read as the
`NOT` operator. -/
def isSafeTerm (t : List Char) : Bool :=
  !t.isEmpty && t.all wordChar && !notTrigger t

/-- What may follow a bare term in a query assembly without disturbing it:
nothing, or a character that neither extends the word nor begins (at any
position of a keyword comparison window) one of the keywords; a space and a
closing parenthesis qualify. -/
def TermStop (rest : List Char) : Prop :=
  ∀ ch r, rest = ch :: r →
    wordChar ch = false ∧ ch.toUpper ≠ 'O' ∧ ch.toUpper ≠ 'T'

/-- The characters of `" AND t₁ AND t₂ …"` for a list of terms. -/
def andTail : List (List Char) → List Char
  | [] => []
  | t :: ts => ' ' :: 'A' :: 'N' :: 'D' :: ' ' :: (t ++ andTail ts)

/-- The characters of `" OR t₁ OR t₂ …"` for a list of terms. -/
def orTail : List (List Char) → List Char
  | [] => []
  | t :: ts => ' ' :: 'O' :: 'R' :: ' ' :: (t ++ orTail ts)

/-- `sep.join`-style query assembly: the terms joined by the separator. -/
def joinSep (sep : String) : List String → String
  | [] => ""
  | [t] => t
  | t :: ts => t ++ sep ++ joinSep sep ts

/-! ## Theorems -/

set_option maxRecDepth 4096

/-- Characterisation of `List.isPrefixOf` on characters. -/
theorem isPrefixOf_eq_true_iff (l₁ l₂ : List Char) :
    l₁.isPrefixOf l₂ = true ↔ ∃ t, l₂ = l₁ ++ t := by
  induction l₁ generalizing l₂ with
  | nil => simp
  | cons a as ih =>
    cases l₂ with
    | nil => simp
    | cons b bs =>
      simp only [List.isPrefixOf_cons₂, Bool.and_eq_true, beq_iff_eq, ih, List.cons_append,
        List.cons.injEq]
      constructor
      · rintro ⟨rfl, t, rfl⟩; exact ⟨t, rfl, rfl⟩
      · rintro ⟨t, rfl, rfl⟩; exact ⟨rfl, t, rfl⟩

/-- Characterisation of `substrIn` as contiguous substring containment. -/
theorem substrIn_iff (needle haystack : List Char) :
    substrIn needle haystack = true ↔ ∃ p q, haystack = p ++ needle ++ q := by
  induction haystack with
  | nil =>
    simp only [substrIn, List.isEmpty_iff]
    constructor
    · rintro rfl; exact ⟨[], [], rfl⟩
    · rintro ⟨p, q, h⟩
      rcases List.append_eq_nil.mp (List.append_eq_nil.mp h.symm).1 with ⟨-, h₂⟩
      exact h₂
  | cons c rest ih =>
    simp only [substrIn, Bool.or_eq_true, isPrefixOf_eq_true_iff, ih]
    constructor
    · rintro (⟨t, ht⟩ | ⟨p, q, rfl⟩)
      · exact ⟨[], t, by simpa using ht⟩
      · exact ⟨c :: p, q, rfl⟩
    · rintro ⟨p, q, hpq⟩
      cases p with
      | nil => exact Or.inl ⟨q, by simpa using hpq⟩
      | cons x xs =>
        simp only [List.cons_append, List.cons.injEq] at hpq
        exact Or.inr ⟨xs, q, hpq.2⟩

/-- Unfolding of `Expr.evalAll` to `List.all`. -/
theorem evalAll_eq_all (cs : List Expr) (t : String) :
    Expr.evalAll cs t = cs.all (fun e => e.eval t) := by
  induction cs with
  | nil => rfl
  | cons e es ih => simp [Expr.evalAll, ih]

/-- Unfolding of `Expr.evalAny` to `List.any`. -/
theorem evalAny_eq_any (cs : List Expr) (t : String) :
    Expr.evalAny cs t = cs.any (fun e => e.eval t) := by
  induction cs with
  | nil => rfl
  | cons e es ih => simp [Expr.evalAny, ih]

/-- C2: evaluation semantics of every node kind: an `Operand` holds iff its
lower-cased term occurs as a contiguous substring of the lower-cased target
(no other normalisation); `Not` is boolean negation of its child; `And`
holds iff all children hold; `Or` holds iff at least one child holds. -/
theorem c2_eval_semantics (term : String) (child : Expr) (cs : List Expr) (target : String) :
    ((Expr.Operand term).eval target = true ↔
      ∃ p q : List Char, (lowerStr target).data = p ++ (lowerStr term).data ++ q) ∧
    (Expr.Not child).eval target = !(child.eval target) ∧
    ((Expr.And cs).eval target = true ↔ ∀ e ∈ cs, e.eval target = true) ∧
    ((Expr.Or cs).eval target = true ↔ ∃ e ∈ cs, e.eval target = true) := by
  refine ⟨?_, rfl, ?_, ?_⟩
  · simpa only [Expr.eval] using
      substrIn_iff (lowerStr term).data (lowerStr target).data
  · rw [show (Expr.And cs).eval target = Expr.evalAll cs target from rfl,
      evalAll_eq_all, List.all_eq_true]
  · rw [show (Expr.Or cs).eval target = Expr.evalAny cs target from rfl,
      evalAny_eq_any, List.any_eq_true]

/-- C5: with `suppress_neutral` false the classifier is configured for top-1
and the selected emotion is the top-ranked label unconditionally; with it
true the classifier is configured for top-2 and the selected emotion is the
top-ranked label unless that label is `"neutral"`, in which case the
second-ranked label. -/
theorem c5_label_selection (pred : List String) :
    topK false = 1 ∧ topK true = 2 ∧
    (∀ l0 rest, pred = l0 :: rest → selectLabel false pred = some l0) ∧
    (∀ l0 l1 rest, pred = l0 :: l1 :: rest →
      selectLabel true pred = some (if l0 = "neutral" then l1 else l0)) := by
  refine ⟨rfl, rfl, ?_, ?_⟩
  · rintro l0 rest rfl; rfl
  · rintro l0 l1 rest rfl
    by_cases h : l0 = "neutral" <;> simp [selectLabel, h]

/-- Witness for C5 on the spec's own example ranking
`[("neutral", 0.9), ("admiration", 0.3)]`. -/
theorem c5_label_selection_witness :
    selectLabel false ["neutral", "admiration"] = some "neutral" ∧
    selectLabel true ["neutral", "admiration"] = some "admiration" := by
  refine ⟨(c5_label_selection ["neutral", "admiration"]).2.2.1 "neutral" ["admiration"] rfl, ?_⟩
  have h := (c5_label_selection ["neutral", "admiration"]).2.2.2 "neutral" "admiration" [] rfl
  simpa using h

/-- C6: the emotion→stage mapping is total: each of the 13 glossary labels
maps to exactly the stage the table specifies, and every other string maps
to `"Awareness"`. -/
theorem c6_stage_mapping :
    (map_emotion_to_stage "curiosity" = "Awareness" ∧
     map_emotion_to_stage "neutral" = "Awareness" ∧
     map_emotion_to_stage "admiration" = "Trust" ∧
     map_emotion_to_stage "optimism" = "Interest" ∧
     map_emotion_to_stage "excitement" = "Interest" ∧
     map_emotion_to_stage "desire" = "Interest" ∧
     map_emotion_to_stage "anticipation" = "Interest" ∧
     map_emotion_to_stage "confusion" = "Drop-Off" ∧
     map_emotion_to_stage "disapproval" = "Drop-Off" ∧
     map_emotion_to_stage "anger" = "Drop-Off" ∧
     map_emotion_to_stage "gratitude" = "Advocacy" ∧
     map_emotion_to_stage "pride" = "Advocacy" ∧
     map_emotion_to_stage "love" = "Advocacy") ∧
    ∀ s : String, s ∉ knownLabels → map_emotion_to_stage s = "Awareness" := by
  refine ⟨⟨rfl, rfl, rfl, rfl, rfl, rfl, rfl, rfl, rfl, rfl, rfl, rfl, rfl⟩, ?_⟩
  intro s hs
  simp only [knownLabels, List.mem_cons, List.not_mem_nil, or_false, not_or] at hs
  obtain ⟨h1, h2, h3, h4, h5, h6, h7, h8, h9, h10, h11, h12, h13⟩ := hs
  simp [map_emotion_to_stage, h1, h2, h3, h4, h5, h6, h7, h8, h9, h10, h11, h12, h13]

/-- Witness for C6 at the unmapped label `"sadness"`. -/
theorem c6_stage_mapping_witness :
    "sadness" ∉ knownLabels ∧ map_emotion_to_stage "sadness" = "Awareness" :=
  ⟨by decide, c6_stage_mapping.2 "sadness" (by decide)⟩

/-- The empty needle is contained in every haystack (Python `"" in s`). -/
theorem substrIn_nil (l : List Char) : substrIn [] l = true := by
  induction l with
  | nil => rfl
  | cons c rest ih => simp [substrIn]

/-- C3 as stated is false: the dangling-`AND` query `"a AND"` — an operator
in an invalid position with no right operand — parses successfully to the
bare operand `a` instead of failing, because `parseString` defaults to
`parseAll=False` and ignores trailing input after the longest valid prefix
expression. -/
theorem c3_counterexample_dangling_and :
    parseQuery "a AND" = some (Expr.Operand "a") := rfl

/-- C3, amended: parsing fails (no expression node is produced and the
filter step of `scrape` cannot proceed) for the empty query and for queries
with no valid leading expression, such as an unmatched opening quote or
parenthesis; but a malformation after a complete prefix expression — a
dangling `AND` with no right operand, or an unmatched trailing quote or
parenthesis — does not fail: the parser returns the longest valid prefix
and silently ignores the rest. -/
theorem c3_parse_failures :
    parseQuery "" = none ∧
    parseQuery "\"abc" = none ∧
    parseQuery "(a OR b" = none ∧
    filterByQuery "" [some "water bottle"] = Except.error PyErr.parseError ∧
    parseQuery "a AND" = some (Expr.Operand "a") ∧
    parseQuery "abc\"" = some (Expr.Operand "abc") ∧
    parseQuery "a)" = some (Expr.Operand "a") :=
  ⟨rfl, rfl, rfl, rfl, rfl, rfl, rfl⟩

/-- C10: the empty quoted phrase parses to an operand whose term is the
empty string, and that operand evaluates true on every target text, so the
empty-phrase query matches all posts. -/
theorem c10_empty_phrase :
    parseQuery "\"\"" = some (Expr.Operand "") ∧
    ∀ target : String, (Expr.Operand "").eval target = true := by
  refine ⟨rfl, fun target => ?_⟩
  show substrIn (lowerStr "").data (lowerStr target).data = true
  exact substrIn_nil _

/-- C4 is false of the code: a posts collection containing one well-formed
text and one missing text (pandas `NaN`) makes both cited code paths raise
instead of silently excluding the bad row.  The scrape query filter raises
`AttributeError` evaluating the parsed query on the non-string cell, and
`predict_sentiment` drops the non-string from the classified texts but then
aborts with a length-mismatch `ValueError` when writing the per-prediction
emotion column back to the unshrunk DataFrame. -/
theorem c4_nonstring_text_raises :
    filterByQuery "water" [some "my water bottle", none]
      = Except.error PyErr.attributeError ∧
    predictSentimentModel "water" 512 100 false (fun _ => ["joy"])
      [some "my water bottle", none]
      = Except.error PyErr.lengthMismatch :=
  ⟨rfl, rfl⟩

/-- C8 as stated is false: for a post text with trailing whitespace the text
submitted to the classifier is not the template-prefixed original hard-cut
at `max_text_len` — `predict_sentiment` also strips surrounding whitespace
(`t.strip()[:max_text_len]`) before the cut. -/
theorem c8_counterexample_strip :
    pipelineTexts "q" 512 [some "hi \n"]
      ≠ [takeChars 512 (prefixTemplate "q" "hi \n")] := by
  decide

/-- C8, amended: for every post with string text, the text submitted to the
classifier is the original text prefixed with the fixed template
`"Query: {query}. Post: {original_text}"`, then stripped of leading and
trailing whitespace, then truncated by a hard character cut at
`max_text_len` (default 512) — no word-boundary-aware truncation and no
further transformation; non-string cells are dropped. -/
theorem c8_submitted_text (query : String) (maxTextLen : Nat) (cells : List TextCell) :
    pipelineTexts query maxTextLen cells =
      cells.filterMap (Option.map
        (fun t => takeChars maxTextLen (stripStr (prefixTemplate query t)))) := by
  induction cells with
  | nil => rfl
  | cons c cs ih =>
    cases c with
    | none => simpa [pipelineTexts, List.filterMap_cons] using ih
    | some t => simpa [pipelineTexts, List.filterMap_cons] using ih

/-- Flattening the fuel-bounded chunking returns the original list. -/
theorem chunksOfAux_flatten {α : Type} (batchSize : Nat) (hbs : 0 < batchSize) :
    ∀ (fuel : Nat) (l : List α), l.length < fuel →
      (chunksOfAux batchSize fuel l).flatten = l := by
  intro fuel
  induction fuel with
  | zero => intro l h; omega
  | succ fuel ih =>
    intro l h
    rw [chunksOfAux]
    by_cases hl : l.isEmpty = true
    · simp [hl, List.isEmpty_iff.mp hl]
    · have hpos : 0 < l.length := by
        cases l with
        | nil => simp at hl
        | cons a as => simp
      rw [if_neg hl, List.flatten_cons,
        ih (l.drop batchSize) (by simp only [List.length_drop]; omega),
        List.take_append_drop]

/-- Flattening the chunking returns the original list. -/
theorem chunksOf_flatten {α : Type} (batchSize : Nat) (hbs : 0 < batchSize) (l : List α) :
    (chunksOf batchSize l).flatten = l := by
  rw [chunksOf, if_neg (by omega)]
  exact chunksOfAux_flatten batchSize hbs (l.length + 1) l (by omega)

/-- Every chunk produced by the fuel-bounded chunking has at most
`batchSize` elements. -/
theorem chunksOfAux_length_le {α : Type} (batchSize : Nat) :
    ∀ (fuel : Nat) (l : List α) (c : List α),
      c ∈ chunksOfAux batchSize fuel l → c.length ≤ batchSize := by
  intro fuel
  induction fuel with
  | zero => intro l c h; simp [chunksOfAux] at h
  | succ fuel ih =>
    intro l c h
    rw [chunksOfAux] at h
    by_cases hl : l.isEmpty = true
    · simp [hl] at h
    · rw [if_neg hl] at h
      rcases List.mem_cons.mp h with rfl | h2
      · rw [List.length_take]; exact Nat.min_le_left _ _
      · exact ih (l.drop batchSize) c h2

/-- Every chunk has at most `batchSize` elements. -/
theorem chunksOf_length_le {α : Type} (batchSize : Nat) (l : List α) (c : List α)
    (hc : c ∈ chunksOf batchSize l) : c.length ≤ batchSize := by
  rw [chunksOf] at hc
  by_cases h0 : batchSize = 0
  · simp [h0] at hc
  · rw [if_neg h0] at hc
    exact chunksOfAux_length_le batchSize (l.length + 1) l c hc

/-- Writing slots by index leaves the slot count unchanged. -/
theorem foldl_set_length {α : Type} (v : Nat → α) (order : List Nat) (slots : List α) :
    (order.foldl (fun sl i => sl.set i (v i)) slots).length = slots.length := by
  induction order generalizing slots with
  | nil => rfl
  | cons i rest ih => simp [List.foldl_cons, ih]

/-- After writing slot `i := v i` for every `i` in `order`, slot `j` holds
`v j` whenever `j` was written at all — independent of the write order,
because every write to a given slot writes the same value. -/
theorem foldl_set_get {α : Type} (v : Nat → α) (order : List Nat) (slots : List α)
    (j : Nat) (hj : j < slots.length) :
    (order.foldl (fun sl i => sl.set i (v i)) slots).get
        ⟨j, (foldl_set_length v order slots).symm ▸ hj⟩ =
      if j ∈ order then v j else slots.get ⟨j, hj⟩ := by
  induction order generalizing slots with
  | nil => simp
  | cons i rest ih =>
    simp only [List.foldl_cons]
    have hj1 : j < (slots.set i (v i)).length := by simpa using hj
    rw [ih (slots.set i (v i)) hj1]
    by_cases hmem : j ∈ rest
    · simp [hmem]
    · simp only [hmem, if_false]
      rw [List.get_eq_getElem, List.getElem_set]
      by_cases hij : i = j
      · subst hij; simp
      · have hne : ¬(j = i) := fun h => hij h.symm
        simp [List.mem_cons, hne, hmem, hij, List.get_eq_getElem]

/-- Whatever the completion order, as long as it processes every chunk
exactly once, the slot array collected by the dispatcher equals the
in-order map of the classifier over the chunks. -/
theorem runOrder_eq {α : Type} (f : List String → List α) (chunks : List (List String))
    (order : List Nat) (hperm : order.Perm (List.range chunks.length)) :
    runOrder f chunks order = chunks.map f := by
  have hlen : (runOrder f chunks order).length = chunks.length := by
    simpa [runOrder] using
      foldl_set_length (fun i => f (chunks.getD i [])) order
        (List.replicate chunks.length [])
  apply List.ext_getElem (by simpa using hlen)
  intro j h1 h2
  have hjc : j < chunks.length := by rwa [hlen] at h1
  have hjs : j < (List.replicate chunks.length ([] : List α)).length := by simpa using hjc
  have hmem : j ∈ order := hperm.mem_iff.mpr (List.mem_range.mpr hjc)
  have hget := foldl_set_get (fun i => f (chunks.getD i [])) order
    (List.replicate chunks.length []) j hjs
  rw [List.get_eq_getElem] at hget
  calc (runOrder f chunks order)[j]
      = f (chunks.getD j []) := by
        simp only [runOrder]
        rw [hget]
        simp [hmem]
    _ = (chunks.map f)[j] := by
        simp [List.getElem_map, List.getD_eq_getElem?_getD, List.getElem?_eq_getElem hjc]

/-- C7: the concurrent batch dispatch partitions the texts into contiguous
chunks of at most `batchSize`, runs them on a pool bounded by 4 workers,
and — whatever order the chunks complete in — flattens to a prediction list
identical to the strictly sequential batch-by-batch execution; with a
per-text classifier the result aligns index-by-index with the input
texts. -/
theorem c7_batch_dispatch {α : Type} (f : List String → List α) (batchSize : Nat)
    (texts : List String) (order : List Nat) (hbs : 0 < batchSize)
    (hord : order.Perm (List.range (chunksOf batchSize texts).length)) :
    concRun f batchSize texts order = seqRun f batchSize texts ∧
    (∀ g : String → α,
      seqRun (fun chunk => chunk.map g) batchSize texts = texts.map g) ∧
    (∀ c ∈ chunksOf batchSize texts, c.length ≤ batchSize) ∧
    maxWorkers = 4 := by
  refine ⟨?_, ?_, fun c hc => chunksOf_length_le batchSize texts c hc, rfl⟩
  · rw [concRun, seqRun, runOrder_eq f _ order hord]
  · intro g
    simp only [seqRun, ← List.map_flatten, chunksOf_flatten batchSize hbs]

/-- Witness for C7: three texts in chunks of two, completing in reversed
order, still flatten to the sequential result. -/
theorem c7_batch_dispatch_witness :
    concRun (fun chunk => chunk.map (fun s => s ++ "!")) 2 ["t0", "t1", "t2"] [1, 0]
      = seqRun (fun chunk => chunk.map (fun s => s ++ "!")) 2 ["t0", "t1", "t2"] :=
  (c7_batch_dispatch (fun chunk => chunk.map (fun s => s ++ "!")) 2 ["t0", "t1", "t2"]
    [1, 0] (by decide) (by decide)).1

/-- A word character is not skippable whitespace. -/
theorem wsChar_eq_false_of_wordChar (c : Char) (h : wordChar c = true) :
    wsChar c = false := by
  by_cases h1 : c = ' '
  · subst h1; exact absurd h (by decide)
  · by_cases h2 : c = '\n'
    · subst h2; exact absurd h (by decide)
    · by_cases h3 : c = '\t'
      · subst h3; exact absurd h (by decide)
      · simp [wsChar, h1, h2, h3]

/-- Whitespace skipping does nothing before a word character. -/
theorem dropWs_of_head_word (t rest : List Char) (hne : t ≠ [])
    (hall : ∀ c ∈ t, wordChar c = true) : dropWs (t ++ rest) = t ++ rest := by
  cases t with
  | nil => exact absurd rfl hne
  | cons x xs =>
    have hx : wsChar x = false := wsChar_eq_false_of_wordChar x (hall x (by simp))
    simp [dropWs, List.dropWhile_cons, hx]

/-- Whitespace skipping consumes a leading whitespace character. -/
theorem dropWs_cons_ws (ch : Char) (h : wsChar ch = true) (u : List Char) :
    dropWs (ch :: u) = dropWs u := by
  simp [dropWs, List.dropWhile_cons, h]

/-- Caseless comparison is equality of the upper-cased lists. -/
theorem upperEq_eq_true_iff (a b : List Char) :
    upperEq a b = true ↔ a.map Char.toUpper = b.map Char.toUpper := by
  simp [upperEq]

/-- Splitting `takeWhile` / `dropWhile` along an all-satisfying front whose
continuation starts with a failing character. -/
theorem span_append_eq (p : Char → Bool) (t rest : List Char)
    (hall : ∀ c ∈ t, p c = true)
    (hrest : ∀ ch r, rest = ch :: r → p ch = false) :
    (t ++ rest).takeWhile p = t ∧ (t ++ rest).dropWhile p = rest := by
  induction t with
  | nil =>
    cases rest with
    | nil => simp
    | cons ch r => simp [List.takeWhile_cons, List.dropWhile_cons, hrest ch r rfl]
  | cons x xs ih =>
    have hx : p x = true := hall x (by simp)
    have ih2 := ih (fun c hc => hall c (by simp [hc]))
    simp [List.takeWhile_cons, List.dropWhile_cons, hx, ih2.1, ih2.2]

/-- A maximal word match at the head of a term-led stream. -/
theorem parseWordTok_eager (t rest : List Char) (hne : t ≠ [])
    (hall : ∀ c ∈ t, wordChar c = true)
    (hrest : ∀ ch r, rest = ch :: r → wordChar ch = false) :
    parseWordTok (t ++ rest) = some (t, rest) := by
  have hspan := span_append_eq wordChar t rest hall hrest
  have hemp : t.isEmpty = false := by cases t with
    | nil => exact absurd rfl hne
    | cons x xs => rfl
  simp [parseWordTok, dropWs_of_head_word t rest hne hall, hspan.1, hspan.2, hemp]

/-- The word token fails when the first significant character is not a word
character (or the stream is exhausted). -/
theorem parseWordTok_fail (s : List Char)
    (h : ∀ ch r, dropWs s = ch :: r → wordChar ch = false) :
    parseWordTok s = none := by
  cases hd : dropWs s with
  | nil => simp [parseWordTok, hd]
  | cons ch r => simp [parseWordTok, hd, List.takeWhile_cons, h ch r hd]

/-- The quoted-phrase token fails when the first significant character is
not a double quote (or the stream is exhausted). -/
theorem parseQuotedTok_fail (s : List Char)
    (h : ∀ r, dropWs s ≠ '"' :: r) : parseQuotedTok s = none := by
  unfold parseQuotedTok
  split
  · next rest heq => exact absurd heq (h rest)
  · rfl

/-- The keyword token ignores one leading whitespace character. -/
theorem keywordTok_cons_ws (kw : List Char) (ch : Char) (h : wsChar ch = true)
    (u : List Char) : keywordTok kw (ch :: u) = keywordTok kw u := by
  simp only [keywordTok, dropWs_cons_ws ch h]

/-- The word token ignores one leading whitespace character. -/
theorem parseWordTok_cons_ws (ch : Char) (h : wsChar ch = true) (u : List Char) :
    parseWordTok (ch :: u) = parseWordTok u := by
  simp only [parseWordTok, dropWs_cons_ws ch h]

/-- The quoted-phrase token ignores one leading whitespace character. -/
theorem parseQuotedTok_cons_ws (ch : Char) (h : wsChar ch = true) (u : List Char) :
    parseQuotedTok (ch :: u) = parseQuotedTok u := by
  unfold parseQuotedTok
  rw [dropWs_cons_ws ch h]

/-- The base-expression level ignores one leading whitespace character. -/
theorem parseAtom_cons_ws (f : Nat) (ch : Char) (h : wsChar ch = true) (u : List Char) :
    parseAtom f (ch :: u) = parseAtom f u := by
  cases f with
  | zero => rfl
  | succ f =>
    simp only [parseAtom, parseQuotedTok_cons_ws ch h, parseWordTok_cons_ws ch h,
      dropWs_cons_ws ch h]

/-- The `NOT` level ignores one leading whitespace character. -/
theorem parseNotL_cons_ws (f : Nat) (ch : Char) (h : wsChar ch = true) (u : List Char) :
    parseNotL f (ch :: u) = parseNotL f u := by
  cases f with
  | zero => rfl
  | succ f =>
    simp only [parseNotL, keywordTok_cons_ws kwNOT ch h, parseAtom_cons_ws f ch h]

/-- The `AND` level ignores one leading whitespace character. -/
theorem parseAndL_cons_ws (f : Nat) (ch : Char) (h : wsChar ch = true) (u : List Char) :
    parseAndL f (ch :: u) = parseAndL f u := by
  cases f with
  | zero => rfl
  | succ f =>
    simp only [parseAndL, parseNotL_cons_ws f ch h]

/-- The `(AND operand)*` tail consumes nothing when the keyword cannot
match, whatever the fuel. -/
theorem parseAndRest_stop (f : Nat) (s : List Char)
    (h : keywordTok kwAND s = none) : parseAndRest f s = ([], s) := by
  cases f with
  | zero => rfl
  | succ f => simp [parseAndRest, h]

/-- The `(OR operand)*` tail consumes nothing when the keyword cannot
match, whatever the fuel. -/
theorem parseOrRest_stop (f : Nat) (s : List Char)
    (h : keywordTok kwOR s = none) : parseOrRest f s = ([], s) := by
  cases f with
  | zero => rfl
  | succ f => simp [parseOrRest, h]

/-- A keyword match fails whenever the first significant character already
differs caselessly from the keyword's first letter. -/
theorem keywordTok_fail_head (k0 : Char) (kw : List Char) (s : List Char)
    (ch : Char) (r : List Char) (hd : dropWs s = ch :: r)
    (hne : ch.toUpper ≠ k0.toUpper) : keywordTok (k0 :: kw) s = none := by
  have hfalse : upperEq ((dropWs s).take (k0 :: kw).length) (k0 :: kw) = false := by
    rw [hd]
    apply Bool.eq_false_iff.mpr
    intro hu
    rw [upperEq_eq_true_iff] at hu
    simp only [List.length_cons, List.take_succ_cons, List.map_cons,
      List.cons.injEq] at hu
    exact hne hu.1
  simp only [List.length_cons] at hfalse
  simp [keywordTok, hfalse]

/-- The components of term safety. -/
theorem isSafeTerm_spec (t : List Char) (h : isSafeTerm t = true) :
    t ≠ [] ∧ (∀ c ∈ t, wordChar c = true) ∧ notTrigger t = false := by
  simp only [isSafeTerm, Bool.and_eq_true, Bool.not_eq_eq_eq_not, Bool.not_true,
    List.all_eq_true] at h
  refine ⟨?_, h.1.2, h.2⟩
  intro hnil
  rw [hnil] at h
  simp at h

/-- The `NOT` keyword never matches at the head of a safe bare term whose
continuation satisfies `TermStop`: either the caseless comparison fails, or
it succeeds but the boundary character is an identifier character — a
keyword-boundary success is exactly the `notTrigger` the safety predicate
excludes. -/
theorem keywordTok_NOT_safe (t rest : List Char) (hsafe : isSafeTerm t = true)
    (hstop : TermStop rest) : keywordTok kwNOT (t ++ rest) = none := by
  obtain ⟨hne, hall, hnt⟩ := isSafeTerm_spec t hsafe
  have hdrop : dropWs (t ++ rest) = t ++ rest := dropWs_of_head_word t rest hne hall
  by_cases hu : upperEq ((t ++ rest).take kwNOT.length) kwNOT = true
  · have humap := (upperEq_eq_true_iff _ _).mp hu
    cases t with
    | nil => exact absurd rfl hne
    | cons x xs =>
      cases xs with
      | nil =>
        exfalso
        simp only [kwNOT, List.length_cons, List.length_nil, List.cons_append,
          List.nil_append, List.take_succ_cons, List.map_cons, List.cons.injEq] at humap
        obtain ⟨-, humap2⟩ := humap
        cases rest with
        | nil => simp at humap2
        | cons ch r =>
          obtain ⟨-, hcho, -⟩ := hstop ch r rfl
          simp only [List.take_succ_cons, List.map_cons, List.cons.injEq] at humap2
          exact hcho humap2.1
      | cons y ys =>
        cases ys with
        | nil =>
          exfalso
          simp only [kwNOT, List.length_cons, List.length_nil, List.cons_append,
            List.nil_append, List.take_succ_cons, List.map_cons, List.cons.injEq] at humap
          obtain ⟨-, -, humap3⟩ := humap
          cases rest with
          | nil => simp at humap3
          | cons ch r =>
            obtain ⟨-, -, hcht⟩ := hstop ch r rfl
            simp only [List.take_succ_cons, List.map_cons, List.cons.injEq] at humap3
            exact hcht humap3.1
        | cons z t2 =>
          have hdrop3 : ((x :: y :: z :: t2) ++ rest).drop kwNOT.length = t2 ++ rest := by
            simp [kwNOT]
          have hfst : upperEq ((x :: y :: z :: t2).take 3) kwNOT = true := by
            rw [upperEq_eq_true_iff]
            have : ((x :: y :: z :: t2) ++ rest).take kwNOT.length = [x, y, z] := by
              simp [kwNOT]
            rw [this] at humap
            simpa [List.take_succ_cons] using humap
          have hmatchPart :
              (match (x :: y :: z :: t2).drop 3 with
               | [] => true
               | c :: _ => !kwIdentChar c) = false := by
            rw [notTrigger] at hnt
            have ht3 : (x :: y :: z :: t2).take 3 = [x, y, z] := by
              simp [List.take_succ_cons]
            rw [ht3] at hnt
            have ht3b : ((x : Char) :: y :: z :: t2).take 3 = [x, y, z] := ht3
            rw [show upperEq [x, y, z] kwNOT = true from by
              have := hfst; rwa [ht3] at this] at hnt
            simpa using hnt
          simp only [List.drop_succ_cons, List.drop_zero] at hmatchPart
          cases t2 with
          | nil => simp at hmatchPart
          | cons d ds =>
            have hd2 : kwIdentChar d = true := by simpa using hmatchPart
            simp only [keywordTok, hdrop, hu, if_true, hdrop3]
            simp [hd2]
  · have hfalse := Bool.eq_false_iff.mpr hu
    simp [keywordTok, hdrop, hfalse]

/-- Whitespace skipping does nothing before a non-whitespace character. -/
theorem dropWs_cons_nonws (ch : Char) (h : wsChar ch = false) (u : List Char) :
    dropWs (ch :: u) = ch :: u := by
  simp [dropWs, List.dropWhile_cons, h]

/-- Nothing follows: a trivial `TermStop`. -/
theorem termStop_nil : TermStop [] := by
  intro ch r h
  simp at h

/-- A space may follow a term. -/
theorem termStop_space (u : List Char) : TermStop (' ' :: u) := by
  intro ch r h
  obtain ⟨rfl, -⟩ : ' ' = ch ∧ u = r := by simpa using h
  exact ⟨by decide, by decide, by decide⟩

/-- A closing parenthesis may follow a term. -/
theorem termStop_rparen (u : List Char) : TermStop (')' :: u) := by
  intro ch r h
  obtain ⟨rfl, -⟩ : ')' = ch ∧ u = r := by simpa using h
  exact ⟨by decide, by decide, by decide⟩

/-- An `AND`-joined tail is a valid term continuation. -/
theorem termStop_andTail (ts : List (List Char)) (rest : List Char)
    (h : TermStop rest) : TermStop (andTail ts ++ rest) := by
  cases ts with
  | nil => simpa [andTail] using h
  | cons t ts2 =>
    simp only [andTail, List.cons_append]
    exact termStop_space _

/-- An `OR`-joined tail is a valid term continuation. -/
theorem termStop_orTail (ts : List (List Char)) (rest : List Char)
    (h : TermStop rest) : TermStop (orTail ts ++ rest) := by
  cases ts with
  | nil => simpa [orTail] using h
  | cons t ts2 =>
    simp only [orTail, List.cons_append]
    exact termStop_space _

/-- The base level reads exactly one safe bare word at the head of the
stream. -/
theorem parseAtom_safe_word (f : Nat) (t rest : List Char)
    (hsafe : isSafeTerm t = true) (hstop : TermStop rest) :
    parseAtom (f + 1) (t ++ rest) = some (Expr.Operand ⟨t⟩, rest) := by
  obtain ⟨hne, hall, -⟩ := isSafeTerm_spec t hsafe
  have hq : parseQuotedTok (t ++ rest) = none := by
    apply parseQuotedTok_fail
    intro rq hcon
    rw [dropWs_of_head_word t rest hne hall] at hcon
    cases t with
    | nil => exact hne rfl
    | cons x xs =>
      simp only [List.cons_append, List.cons.injEq] at hcon
      have hx := hall x (by simp)
      rw [hcon.1] at hx
      exact absurd hx (by decide)
  have hw : parseWordTok (t ++ rest) = some (t, rest) :=
    parseWordTok_eager t rest hne hall (fun ch r hr => (hstop ch r hr).1)
  simp only [parseAtom, hq, hw]

/-- The `NOT` level reads exactly one safe bare word at the head of the
stream (the keyword cannot match there). -/
theorem parseNotL_safe_word (f : Nat) (t rest : List Char)
    (hsafe : isSafeTerm t = true) (hstop : TermStop rest) :
    parseNotL (f + 2) (t ++ rest) = some (Expr.Operand ⟨t⟩, rest) := by
  have hk := keywordTok_NOT_safe t rest hsafe hstop
  show parseNotL ((f + 1) + 1) (t ++ rest) = _
  simp only [parseNotL, hk]
  exact parseAtom_safe_word f t rest hsafe hstop

/-- The `AND` keyword matches at the head of an `AND`-separated tail. -/
theorem keywordTok_AND_head (u : List Char) :
    keywordTok kwAND (' ' :: 'A' :: 'N' :: 'D' :: ' ' :: u) = some (' ' :: u) := rfl

/-- The `OR` keyword matches at the head of an `OR`-separated tail. -/
theorem keywordTok_OR_head (u : List Char) :
    keywordTok kwOR (' ' :: 'O' :: 'R' :: ' ' :: u) = some (' ' :: u) := rfl

/-- The `AND` keyword fails at the head of an `OR`-separated tail. -/
theorem keywordTok_AND_at_or (u : List Char) :
    keywordTok kwAND (' ' :: 'O' :: 'R' :: ' ' :: u) = none := rfl

/-- The keywords fail on the empty stream. -/
theorem keywordTok_AND_nil : keywordTok kwAND [] = none := rfl

/-- The `OR` keyword fails on the empty stream. -/
theorem keywordTok_OR_nil : keywordTok kwOR [] = none := rfl

/-- The `AND` keyword fails at a closing parenthesis. -/
theorem keywordTok_AND_rparen (u : List Char) :
    keywordTok kwAND (')' :: u) = none :=
  keywordTok_fail_head 'A' ['N', 'D'] _ ')' u
    (dropWs_cons_nonws ')' (by decide) u) (by decide)

/-- The `OR` keyword fails at a closing parenthesis. -/
theorem keywordTok_OR_rparen (u : List Char) :
    keywordTok kwOR (')' :: u) = none :=
  keywordTok_fail_head 'O' ['R'] _ ')' u
    (dropWs_cons_nonws ')' (by decide) u) (by decide)

/-- The `AND` keyword fails at the head of an `OR` tail joined on any
continuation, or on a continuation where it already fails. -/
theorem keywordTok_AND_orTail (ts : List (List Char)) (rest : List Char)
    (h : keywordTok kwAND rest = none) :
    keywordTok kwAND (orTail ts ++ rest) = none := by
  cases ts with
  | nil => simpa [orTail] using h
  | cons t ts2 =>
    simp only [orTail, List.cons_append]
    exact keywordTok_AND_at_or _

/-- The `(AND operand)*` tail collects an `AND`-separated run of safe terms
into a flat operand list, in source order, stopping exactly at `rest`. -/
theorem parseAndRest_chain (ts : List (List Char)) :
    ∀ (f : Nat) (rest : List Char),
      (∀ t ∈ ts, isSafeTerm t = true) → TermStop rest →
      keywordTok kwAND rest = none →
      parseAndRest (3 * ts.length + f) (andTail ts ++ rest) =
        (ts.map (fun t => Expr.Operand ⟨t⟩), rest) := by
  induction ts with
  | nil =>
    intro f rest hsafe hstop hstopkw
    simpa [andTail] using parseAndRest_stop f rest hstopkw
  | cons t ts ih =>
    intro f rest hsafe hstop hstopkw
    have hnot : parseNotL (3 * ts.length + f + 2) (' ' :: (t ++ (andTail ts ++ rest)))
        = some (Expr.Operand ⟨t⟩, andTail ts ++ rest) := by
      rw [parseNotL_cons_ws _ ' ' (by decide)]
      exact parseNotL_safe_word (3 * ts.length + f) t (andTail ts ++ rest)
        (hsafe t (by simp)) (termStop_andTail ts rest hstop)
    have hrec : parseAndRest (3 * ts.length + f + 2) (andTail ts ++ rest)
        = (ts.map (fun u => Expr.Operand ⟨u⟩), rest) := by
      have h := ih (f + 2) rest (fun u hu => hsafe u (by simp [hu])) hstop hstopkw
      rwa [show 3 * ts.length + (f + 2) = 3 * ts.length + f + 2 from by omega] at h
    have hfuel : 3 * (t :: ts).length + f = (3 * ts.length + f + 2) + 1 := by
      simp only [List.length_cons]
      omega
    have hstream : andTail (t :: ts) ++ rest
        = ' ' :: 'A' :: 'N' :: 'D' :: ' ' :: (t ++ (andTail ts ++ rest)) := by
      simp [andTail, List.cons_append, List.append_assoc]
    rw [hfuel, hstream, parseAndRest]
    simp only [keywordTok_AND_head, hnot, hrec, List.map_cons]

/-- The `AND` level reads a safe term optionally followed by an
`AND`-separated run of safe terms: with at least one continuation the
result is one flat `And` node over all the operands, otherwise the bare
operand passes through. -/
theorem parseAndL_chain (t : List Char) (ts : List (List Char)) (f : Nat)
    (rest : List Char) (hsafe : isSafeTerm t = true)
    (hsafes : ∀ u ∈ ts, isSafeTerm u = true)
    (hstop : TermStop rest) (hstopkw : keywordTok kwAND rest = none) :
    parseAndL (3 * ts.length + f + 3) (t ++ (andTail ts ++ rest)) =
      some (if ts.isEmpty then Expr.Operand ⟨t⟩
            else Expr.And (Expr.Operand ⟨t⟩ :: ts.map (fun u => Expr.Operand ⟨u⟩)),
        rest) := by
  have hnot : parseNotL (3 * ts.length + f + 2) (t ++ (andTail ts ++ rest))
      = some (Expr.Operand ⟨t⟩, andTail ts ++ rest) :=
    parseNotL_safe_word (3 * ts.length + f) t (andTail ts ++ rest) hsafe
      (termStop_andTail ts rest hstop)
  have hrec : parseAndRest (3 * ts.length + f + 2) (andTail ts ++ rest)
      = (ts.map (fun u => Expr.Operand ⟨u⟩), rest) := by
    have h := parseAndRest_chain ts (f + 2) rest hsafes hstop hstopkw
    rwa [show 3 * ts.length + (f + 2) = 3 * ts.length + f + 2 from by omega] at h
  have h1 : 3 * ts.length + f + 3 = (3 * ts.length + f + 2) + 1 := rfl
  rw [h1, parseAndL]
  simp only [hnot, hrec]
  cases ts with
  | nil => simp [andTail]
  | cons u us => simp

/-- The `(OR operand)*` tail collects an `OR`-separated run of safe terms
into a flat operand list, in source order, stopping exactly at `rest`. -/
theorem parseOrRest_chain (ts : List (List Char)) :
    ∀ (f : Nat) (rest : List Char),
      (∀ t ∈ ts, isSafeTerm t = true) → TermStop rest →
      keywordTok kwAND rest = none → keywordTok kwOR rest = none →
      parseOrRest (4 * ts.length + f) (orTail ts ++ rest) =
        (ts.map (fun t => Expr.Operand ⟨t⟩), rest) := by
  induction ts with
  | nil =>
    intro f rest hsafe hstop hstopand hstopor
    simpa [orTail] using parseOrRest_stop f rest hstopor
  | cons t ts ih =>
    intro f rest hsafe hstop hstopand hstopor
    have hand : parseAndL (4 * ts.length + f + 3) (' ' :: (t ++ (orTail ts ++ rest)))
        = some (Expr.Operand ⟨t⟩, orTail ts ++ rest) := by
      rw [parseAndL_cons_ws _ ' ' (by decide)]
      have h := parseAndL_chain t [] (4 * ts.length + f) (orTail ts ++ rest)
        (hsafe t (by simp)) (by simp) (termStop_orTail ts rest hstop)
        (keywordTok_AND_orTail ts rest hstopand)
      simpa [andTail] using h
    have hrec : parseOrRest (4 * ts.length + f + 3) (orTail ts ++ rest)
        = (ts.map (fun u => Expr.Operand ⟨u⟩), rest) := by
      have h := ih (f + 3) rest (fun u hu => hsafe u (by simp [hu])) hstop
        hstopand hstopor
      rwa [show 4 * ts.length + (f + 3) = 4 * ts.length + f + 3 from by omega] at h
    have hfuel : 4 * (t :: ts).length + f = (4 * ts.length + f + 3) + 1 := by
      simp only [List.length_cons]
      omega
    have hstream : orTail (t :: ts) ++ rest
        = ' ' :: 'O' :: 'R' :: ' ' :: (t ++ (orTail ts ++ rest)) := by
      simp [orTail, List.cons_append, List.append_assoc]
    rw [hfuel, hstream, parseOrRest]
    simp only [keywordTok_OR_head, hand, hrec, List.map_cons]

/-- The full expression level on a term followed by an `AND`-separated run:
the `OR` tail finds nothing and the `AND`-level result passes through. -/
theorem parseOrL_and_chain (t : List Char) (ts : List (List Char)) (f : Nat)
    (rest : List Char) (hsafe : isSafeTerm t = true)
    (hsafes : ∀ u ∈ ts, isSafeTerm u = true)
    (hstop : TermStop rest) (hstopand : keywordTok kwAND rest = none)
    (hstopor : keywordTok kwOR rest = none) :
    parseOrL (3 * ts.length + f + 4) (t ++ (andTail ts ++ rest)) =
      some (if ts.isEmpty then Expr.Operand ⟨t⟩
            else Expr.And (Expr.Operand ⟨t⟩ :: ts.map (fun u => Expr.Operand ⟨u⟩)),
        rest) := by
  have hand := parseAndL_chain t ts f rest hsafe hsafes hstop hstopand
  have horest : parseOrRest (3 * ts.length + f + 3) rest = ([], rest) :=
    parseOrRest_stop _ rest hstopor
  have h1 : 3 * ts.length + f + 4 = (3 * ts.length + f + 3) + 1 := rfl
  rw [h1, parseOrL]
  simp only [hand, horest, List.isEmpty_nil, if_true]

/-- The full expression level on a term followed by an `OR`-separated run
of safe terms: with at least one continuation the result is one flat `Or`
node over all the operands, otherwise the bare operand. -/
theorem parseOrL_or_chain (t : List Char) (ts : List (List Char)) (f : Nat)
    (rest : List Char) (hsafe : isSafeTerm t = true)
    (hsafes : ∀ u ∈ ts, isSafeTerm u = true)
    (hstop : TermStop rest) (hstopand : keywordTok kwAND rest = none)
    (hstopor : keywordTok kwOR rest = none) :
    parseOrL (4 * ts.length + f + 4) (t ++ (orTail ts ++ rest)) =
      some (if ts.isEmpty then Expr.Operand ⟨t⟩
            else Expr.Or (Expr.Operand ⟨t⟩ :: ts.map (fun u => Expr.Operand ⟨u⟩)),
        rest) := by
  have hand : parseAndL (4 * ts.length + f + 3) (t ++ (orTail ts ++ rest))
      = some (Expr.Operand ⟨t⟩, orTail ts ++ rest) := by
    have h := parseAndL_chain t [] (4 * ts.length + f) (orTail ts ++ rest)
      hsafe (by simp) (termStop_orTail ts rest hstop)
      (keywordTok_AND_orTail ts rest hstopand)
    simpa [andTail] using h
  have hrec : parseOrRest (4 * ts.length + f + 3) (orTail ts ++ rest)
      = (ts.map (fun u => Expr.Operand ⟨u⟩), rest) := by
    have h := parseOrRest_chain ts (f + 3) rest hsafes hstop hstopand hstopor
    rwa [show 4 * ts.length + (f + 3) = 4 * ts.length + f + 3 from by omega] at h
  have h1 : 4 * ts.length + f + 4 = (4 * ts.length + f + 3) + 1 := rfl
  rw [h1, parseOrL]
  simp only [hand, hrec]
  cases ts with
  | nil => simp [orTail]
  | cons u us => simp

/-- The characters of an `" AND "`-joined query. -/
theorem joinSep_AND_data (t : String) (ts : List String) :
    (joinSep " AND " (t :: ts)).data = t.data ++ andTail (ts.map String.data) := by
  induction ts generalizing t with
  | nil => simp [joinSep, andTail]
  | cons u us ih =>
    have hstep : joinSep " AND " (t :: u :: us)
        = t ++ " AND " ++ joinSep " AND " (u :: us) := rfl
    have hsep : (" AND " : String).data = [' ', 'A', 'N', 'D', ' '] := rfl
    rw [hstep, String.data_append, String.data_append, hsep, ih u]
    simp [andTail, List.map_cons, List.append_assoc]

/-- The characters of an `" OR "`-joined query. -/
theorem joinSep_OR_data (t : String) (ts : List String) :
    (joinSep " OR " (t :: ts)).data = t.data ++ orTail (ts.map String.data) := by
  induction ts generalizing t with
  | nil => simp [joinSep, orTail]
  | cons u us ih =>
    have hstep : joinSep " OR " (t :: u :: us)
        = t ++ " OR " ++ joinSep " OR " (u :: us) := rfl
    have hsep : (" OR " : String).data = [' ', 'O', 'R', ' '] := rfl
    rw [hstep, String.data_append, String.data_append, hsep, ih u]
    simp [orTail, List.map_cons, List.append_assoc]

/-- Each `AND`-joined continuation contributes at least its separator. -/
theorem andTail_length (ts : List (List Char)) :
    5 * ts.length ≤ (andTail ts).length := by
  induction ts with
  | nil => simp [andTail]
  | cons t ts ih =>
    simp only [andTail, List.length_cons, List.length_append]
    omega

/-- Each `OR`-joined continuation contributes at least its separator. -/
theorem orTail_length (ts : List (List Char)) :
    4 * ts.length ≤ (orTail ts).length := by
  induction ts with
  | nil => simp [orTail]
  | cons t ts ih =>
    simp only [orTail, List.length_cons, List.length_append]
    omega

/-- A structure-eta step for operands built from raw characters. -/
theorem operand_mk_data (s : String) : Expr.Operand ⟨s.data⟩ = Expr.Operand s := rfl

/-- C9: consecutive `AND` (resp. `OR`) operators over bare terms parse to a
single flat n-ary `And` (resp. `Or`) node whose children are all the
operands in left-to-right source order (length ≥ 2), not right-nested
binary pairs; and evaluating an n-ary node splits across any binary
nesting point, so every binary nesting of the same operands evaluates
identically. -/
theorem c9_nary_flattening (ts : List String) (h2 : 2 ≤ ts.length)
    (hsafe : ∀ t ∈ ts, isSafeTerm t.data = true) :
    parseQuery (joinSep " AND " ts) = some (Expr.And (ts.map Expr.Operand)) ∧
    parseQuery (joinSep " OR " ts) = some (Expr.Or (ts.map Expr.Operand)) ∧
    2 ≤ (ts.map Expr.Operand).length ∧
    (∀ (xs ys : List Expr) (target : String),
      (Expr.And (xs ++ ys)).eval target
        = ((Expr.And xs).eval target && (Expr.And ys).eval target)) ∧
    (∀ (xs ys : List Expr) (target : String),
      (Expr.Or (xs ++ ys)).eval target
        = ((Expr.Or xs).eval target || (Expr.Or ys).eval target)) := by
  cases ts with
  | nil => simp at h2
  | cons t ts1 =>
    cases ts1 with
    | nil => simp at h2
    | cons u us =>
      have hsafes : ∀ v ∈ (u :: us).map String.data, isSafeTerm v = true := by
        intro v hv
        rw [List.mem_map] at hv
        obtain ⟨s, hs, rfl⟩ := hv
        exact hsafe s (by simp [hs])
      refine ⟨?_, ?_, by simp, ?_, ?_⟩
      · have hdata : (joinSep " AND " (t :: u :: us)).data
            = t.data ++ (andTail ((u :: us).map String.data) ++ []) := by
          rw [joinSep_AND_data]
          simp
        have hlen : 3 * ((u :: us).map String.data).length + 4
            ≤ parseFuel (joinSep " AND " (t :: u :: us)).data := by
          have h5 := andTail_length ((u :: us).map String.data)
          simp only [parseFuel]
          rw [hdata]
          simp only [List.length_append, List.length_nil]
          omega
        obtain ⟨f, hf⟩ : ∃ f, parseFuel (joinSep " AND " (t :: u :: us)).data
            = 3 * ((u :: us).map String.data).length + f + 4 :=
          ⟨parseFuel (joinSep " AND " (t :: u :: us)).data
            - (3 * ((u :: us).map String.data).length + 4), by omega⟩
        simp only [parseQuery]
        rw [hf, hdata]
        rw [parseOrL_and_chain t.data ((u :: us).map String.data) f []
          (hsafe t (by simp)) hsafes termStop_nil keywordTok_AND_nil keywordTok_OR_nil]
        simp [List.map_map, Function.comp_def, operand_mk_data]
      · have hdata : (joinSep " OR " (t :: u :: us)).data
            = t.data ++ (orTail ((u :: us).map String.data) ++ []) := by
          rw [joinSep_OR_data]
          simp
        have hlen : 4 * ((u :: us).map String.data).length + 4
            ≤ parseFuel (joinSep " OR " (t :: u :: us)).data := by
          have h4 := orTail_length ((u :: us).map String.data)
          simp only [parseFuel]
          rw [hdata]
          simp only [List.length_append, List.length_nil]
          omega
        obtain ⟨f, hf⟩ : ∃ f, parseFuel (joinSep " OR " (t :: u :: us)).data
            = 4 * ((u :: us).map String.data).length + f + 4 :=
          ⟨parseFuel (joinSep " OR " (t :: u :: us)).data
            - (4 * ((u :: us).map String.data).length + 4), by omega⟩
        simp only [parseQuery]
        rw [hf, hdata]
        rw [parseOrL_or_chain t.data ((u :: us).map String.data) f []
          (hsafe t (by simp)) hsafes termStop_nil keywordTok_AND_nil keywordTok_OR_nil]
        simp [List.map_map, Function.comp_def, operand_mk_data]
      · intro xs ys target
        show Expr.evalAll (xs ++ ys) target
          = (Expr.evalAll xs target && Expr.evalAll ys target)
        rw [evalAll_eq_all, evalAll_eq_all, evalAll_eq_all, List.all_append]
      · intro xs ys target
        show Expr.evalAny (xs ++ ys) target
          = (Expr.evalAny xs target || Expr.evalAny ys target)
        rw [evalAny_eq_any, evalAny_eq_any, evalAny_eq_any, List.any_append]

/-- Witness for C9 on three concrete terms joined by `AND`. -/
theorem c9_nary_flattening_witness :
    parseQuery (joinSep " AND " ["water", "bottle", "flask"])
      = some (Expr.And (["water", "bottle", "flask"].map Expr.Operand)) :=
  (c9_nary_flattening ["water", "bottle", "flask"] (by decide) (by decide)).1

/-- Parsing `a OR b AND c` for safe bare terms: `AND` binds tighter, so the
result is an `Or` whose second child is the flat `And` of `b` and `c`. -/
theorem parseOrL_a_or_b_and_c (a b c : List Char) (f : Nat)
    (ha : isSafeTerm a = true) (hb : isSafeTerm b = true)
    (hc : isSafeTerm c = true) :
    parseOrL (f + 8)
        (a ++ (' ' :: 'O' :: 'R' :: ' ' :: (b ++ (andTail [c] ++ [])))) =
      some (Expr.Or [Expr.Operand ⟨a⟩,
        Expr.And [Expr.Operand ⟨b⟩, Expr.Operand ⟨c⟩]], []) := by
  have handa : parseAndL (f + 7)
      (a ++ (' ' :: 'O' :: 'R' :: ' ' :: (b ++ (andTail [c] ++ []))))
      = some (Expr.Operand ⟨a⟩,
          ' ' :: 'O' :: 'R' :: ' ' :: (b ++ (andTail [c] ++ []))) := by
    have h := parseAndL_chain a [] (f + 4)
      (' ' :: 'O' :: 'R' :: ' ' :: (b ++ (andTail [c] ++ []))) ha (by simp)
      (termStop_space _) (keywordTok_AND_at_or _)
    rw [show 3 * ([] : List (List Char)).length + (f + 4) + 3 = f + 7 from by simp] at h
    simpa [andTail] using h
  have handbc : parseAndL (f + 6) (' ' :: (b ++ (andTail [c] ++ [])))
      = some (Expr.And [Expr.Operand ⟨b⟩, Expr.Operand ⟨c⟩], []) := by
    rw [parseAndL_cons_ws _ ' ' (by decide)]
    have h := parseAndL_chain b [c] f [] hb (by simpa using hc)
      termStop_nil keywordTok_AND_nil
    rw [show 3 * ([c] : List (List Char)).length + f + 3 = f + 6 from by
      simp only [List.length_cons, List.length_nil]; omega] at h
    simpa using h
  have horest : parseOrRest (f + 7)
      (' ' :: 'O' :: 'R' :: ' ' :: (b ++ (andTail [c] ++ [])))
      = ([Expr.And [Expr.Operand ⟨b⟩, Expr.Operand ⟨c⟩]], []) := by
    rw [show f + 7 = (f + 6) + 1 from rfl, parseOrRest]
    simp only [keywordTok_OR_head, handbc,
      parseOrRest_stop (f + 6) [] keywordTok_OR_nil]
  rw [show f + 8 = (f + 7) + 1 from rfl, parseOrL]
  simp only [handa, horest]
  simp

/-- Parsing `a OR (b AND c)` for safe bare terms: the parenthesised operand
is the inner expression itself, so the result is the same tree as for
`a OR b AND c`. -/
theorem parseOrL_a_or_paren_b_and_c (a b c : List Char) (f : Nat)
    (ha : isSafeTerm a = true) (hb : isSafeTerm b = true)
    (hc : isSafeTerm c = true) :
    parseOrL (f + 12)
        (a ++ (' ' :: 'O' :: 'R' :: ' ' :: '(' :: (b ++ (andTail [c] ++ [')'])))) =
      some (Expr.Or [Expr.Operand ⟨a⟩,
        Expr.And [Expr.Operand ⟨b⟩, Expr.Operand ⟨c⟩]], []) := by
  have hinner : parseOrL (f + 7) (b ++ (andTail [c] ++ [')']))
      = some (Expr.And [Expr.Operand ⟨b⟩, Expr.Operand ⟨c⟩], [')']) := by
    have h := parseOrL_and_chain b [c] f [')'] hb (by simpa using hc)
      (termStop_rparen []) (keywordTok_AND_rparen []) (keywordTok_OR_rparen [])
    rw [show 3 * ([c] : List (List Char)).length + f + 4 = f + 7 from by
      simp only [List.length_cons, List.length_nil]; omega] at h
    simpa using h
  have hatom : parseAtom (f + 8) ('(' :: (b ++ (andTail [c] ++ [')'])))
      = some (Expr.And [Expr.Operand ⟨b⟩, Expr.Operand ⟨c⟩], []) := by
    have hq : parseQuotedTok ('(' :: (b ++ (andTail [c] ++ [')']))) = none := by
      apply parseQuotedTok_fail
      intro rq hcon
      rw [dropWs_cons_nonws '(' (by decide)] at hcon
      simp at hcon
    have hw : parseWordTok ('(' :: (b ++ (andTail [c] ++ [')']))) = none := by
      apply parseWordTok_fail
      intro ch r hd
      rw [dropWs_cons_nonws '(' (by decide)] at hd
      obtain ⟨rfl, -⟩ : '(' = ch ∧ (b ++ (andTail [c] ++ [')'])) = r := by simpa using hd
      decide
    rw [show f + 8 = (f + 7) + 1 from rfl, parseAtom]
    simp only [hq, hw, dropWs_cons_nonws '(' (by decide), hinner,
      dropWs_cons_nonws ')' (by decide)]
  have hnot : parseNotL (f + 9) ('(' :: (b ++ (andTail [c] ++ [')'])))
      = some (Expr.And [Expr.Operand ⟨b⟩, Expr.Operand ⟨c⟩], []) := by
    have hk : keywordTok kwNOT ('(' :: (b ++ (andTail [c] ++ [')']))) = none :=
      keywordTok_fail_head 'N' ['O', 'T'] _ '(' _
        (dropWs_cons_nonws '(' (by decide) _) (by decide)
    rw [show f + 9 = (f + 8) + 1 from rfl, parseNotL]
    simp only [hk, hatom]
  have handp : parseAndL (f + 10) (' ' :: '(' :: (b ++ (andTail [c] ++ [')'])))
      = some (Expr.And [Expr.Operand ⟨b⟩, Expr.Operand ⟨c⟩], []) := by
    rw [parseAndL_cons_ws _ ' ' (by decide)]
    rw [show f + 10 = (f + 9) + 1 from rfl, parseAndL]
    simp only [hnot, parseAndRest_stop (f + 9) [] keywordTok_AND_nil]
    simp
  have handa : parseAndL (f + 11)
      (a ++ (' ' :: 'O' :: 'R' :: ' ' :: '(' :: (b ++ (andTail [c] ++ [')']))))
      = some (Expr.Operand ⟨a⟩,
          ' ' :: 'O' :: 'R' :: ' ' :: '(' :: (b ++ (andTail [c] ++ [')']))) := by
    have h := parseAndL_chain a [] (f + 8)
      (' ' :: 'O' :: 'R' :: ' ' :: '(' :: (b ++ (andTail [c] ++ [')']))) ha (by simp)
      (termStop_space _) (keywordTok_AND_at_or _)
    rw [show 3 * ([] : List (List Char)).length + (f + 8) + 3 = f + 11 from by simp] at h
    simpa [andTail] using h
  have horest : parseOrRest (f + 11)
      (' ' :: 'O' :: 'R' :: ' ' :: '(' :: (b ++ (andTail [c] ++ [')'])))
      = ([Expr.And [Expr.Operand ⟨b⟩, Expr.Operand ⟨c⟩]], []) := by
    rw [show f + 11 = (f + 10) + 1 from rfl, parseOrRest]
    simp only [keywordTok_OR_head, handp,
      parseOrRest_stop (f + 10) [] keywordTok_OR_nil]
  rw [show f + 12 = (f + 11) + 1 from rfl, parseOrL]
  simp only [handa, horest]
  simp

/-- C1: for safe bare terms, `a OR b AND c` and `a OR (b AND c)` parse to
the same tree — `NOT` > `AND` > `OR` precedence puts the `And` under the
`Or` — so they evaluate identically on every target; concretely the parsed
`"a OR b AND c"` is true on `"b c"`, true on `"a"`, and false on `"c"`. -/
theorem c1_operator_precedence (a b c : String)
    (ha : isSafeTerm a.data = true) (hb : isSafeTerm b.data = true)
    (hc : isSafeTerm c.data = true) :
    parseQuery (a ++ " OR " ++ b ++ " AND " ++ c)
      = some (Expr.Or [Expr.Operand a, Expr.And [Expr.Operand b, Expr.Operand c]]) ∧
    parseQuery (a ++ " OR (" ++ b ++ " AND " ++ c ++ ")")
      = some (Expr.Or [Expr.Operand a, Expr.And [Expr.Operand b, Expr.Operand c]]) ∧
    (∀ target : String,
      (Expr.Or [Expr.Operand a, Expr.And [Expr.Operand b, Expr.Operand c]]).eval target
        = ((Expr.Operand a).eval target
            || ((Expr.Operand b).eval target && (Expr.Operand c).eval target))) ∧
    (parseQuery "a OR b AND c").map (fun e => e.eval "b c") = some true ∧
    (parseQuery "a OR b AND c").map (fun e => e.eval "a") = some true ∧
    (parseQuery "a OR b AND c").map (fun e => e.eval "c") = some false := by
  have hOR : (" OR " : String).data = [' ', 'O', 'R', ' '] := rfl
  have hORP : (" OR (" : String).data = [' ', 'O', 'R', ' ', '('] := rfl
  have hAND : (" AND " : String).data = [' ', 'A', 'N', 'D', ' '] := rfl
  have hRP : (")" : String).data = [')'] := rfl
  refine ⟨?_, ?_, ?_, rfl, rfl, rfl⟩
  · have hdata : (a ++ " OR " ++ b ++ " AND " ++ c).data
        = a.data ++ (' ' :: 'O' :: 'R' :: ' ' :: (b.data ++ (andTail [c.data] ++ []))) := by
      simp [String.data_append, hOR, hAND, andTail, List.append_assoc]
    have hge : 8 ≤ parseFuel (a ++ " OR " ++ b ++ " AND " ++ c).data := by
      simp only [parseFuel]
      rw [hdata]
      simp only [List.length_append, List.length_cons]
      omega
    obtain ⟨f, hf⟩ : ∃ f, parseFuel (a ++ " OR " ++ b ++ " AND " ++ c).data = f + 8 :=
      ⟨parseFuel (a ++ " OR " ++ b ++ " AND " ++ c).data - 8, by omega⟩
    simp only [parseQuery]
    rw [hf, hdata, parseOrL_a_or_b_and_c a.data b.data c.data f ha hb hc]
    rfl
  · have hdata : (a ++ " OR (" ++ b ++ " AND " ++ c ++ ")").data
        = a.data ++ (' ' :: 'O' :: 'R' :: ' ' :: '('
            :: (b.data ++ (andTail [c.data] ++ [')']))) := by
      simp [String.data_append, hORP, hAND, hRP, andTail, List.append_assoc]
    have hge : 12 ≤ parseFuel (a ++ " OR (" ++ b ++ " AND " ++ c ++ ")").data := by
      simp only [parseFuel]
      rw [hdata]
      simp only [List.length_append, List.length_cons]
      omega
    obtain ⟨f, hf⟩ : ∃ f,
        parseFuel (a ++ " OR (" ++ b ++ " AND " ++ c ++ ")").data = f + 12 :=
      ⟨parseFuel (a ++ " OR (" ++ b ++ " AND " ++ c ++ ")").data - 12, by omega⟩
    simp only [parseQuery]
    rw [hf, hdata, parseOrL_a_or_paren_b_and_c a.data b.data c.data f ha hb hc]
    rfl
  · intro target
    show ((Expr.Operand a).eval target
        || ((Expr.And [Expr.Operand b, Expr.Operand c]).eval target || false))
      = ((Expr.Operand a).eval target
        || ((Expr.Operand b).eval target && (Expr.Operand c).eval target))
    have : (Expr.And [Expr.Operand b, Expr.Operand c]).eval target
        = ((Expr.Operand b).eval target && (Expr.Operand c).eval target) := by
      show ((Expr.Operand b).eval target && ((Expr.Operand c).eval target && true))
        = ((Expr.Operand b).eval target && (Expr.Operand c).eval target)
      simp
    rw [this, Bool.or_false]

/-- Witness for C1 at the concrete safe terms `water`, `bottle`, `flask`. -/
theorem c1_operator_precedence_witness :
    parseQuery ("water" ++ " OR " ++ "bottle" ++ " AND " ++ "flask")
      = some (Expr.Or [Expr.Operand "water",
          Expr.And [Expr.Operand "bottle", Expr.Operand "flask"]]) :=
  (c1_operator_precedence "water" "bottle" "flask"
    (by decide) (by decide) (by decide)).1
